import Mathlib

/-!
Shallow embedding of the core of the Store-Monitoring-Service repository:
`app/core/time_utils.py`, `app/core/uptime.py`, `app/core/report_generator.py`.

Modelling conventions:
* UTC instants and local wall-clock instants are `Int` seconds since the epoch
  (the Python code carries timezone-aware `datetime` values; all observation and
  window timestamps are whole seconds, so durations are exact integers).
* A local calendar date is its day number (`fdiv` by 86400, matching Python's
  `datetime.date` floor behaviour); `date.weekday()` with Monday = 0 becomes
  `weekdayOf` (epoch day 0, 1970-01-01, was a Thursday = 3).
* A `pytz` timezone is modelled by its two conversion functions.
  `fromLocal` embeds `tz.localize(naive_local).astimezone(UTC)` and `toLocal`
  embeds `utc_to_local`.  Real IANA zones have UTC offsets between -12:00 and
  +14:00, so `fromLocal` moves an instant by at most those bounds; the two
  bound fields record exactly that.
* Statuses are the strings the database stores ("active" / "inactive").
-/

namespace StoreMonitoring

/-- A timezone, modelled by its local→UTC and UTC→local conversions
(`pytz.timezone(...).localize(...).astimezone(UTC)` and `utc_to_local`).
The bounds state that the zone's UTC offset lies in the real-world range
[-12h, +14h]: `fromLocal l = l - offset` with `offset ∈ [-43200, 50400]`. -/
structure Timezone where
  fromLocal : Int → Int
  toLocal : Int → Int
  fromLocal_ge : ∀ l : Int, l - 50400 ≤ fromLocal l
  fromLocal_le : ∀ l : Int, fromLocal l ≤ l + 43200

/-- The UTC timezone: both conversions are the identity. -/
def tzUTC : Timezone where
  fromLocal := id
  toLocal := id
  fromLocal_ge := fun l => by simp
  fromLocal_le := fun l => by simp

/-- Calendar date (day number) of an instant, as Python's `datetime.date` does:
floor division by the number of seconds in a day. -/
def dateOf (t : Int) : Int := Int.fdiv t 86400

/-- Python's `date.weekday()`: Monday = 0 … Sunday = 6.
Epoch day 0 (1970-01-01) was a Thursday, i.e. weekday 3. -/
def weekdayOf (d : Int) : Int := (d + 3) % 7

/-- A business-hours rule: (start_time_local, end_time_local), each a
time-of-day in seconds in [0, 86400). -/
abbrev Rule := Int × Int

/-- The business-hours mapping `day_of_week ↦ list of rules` built by
`get_business_hours_map` (a Python dict; keys are unique). -/
abbrev BHMap := List (Int × List Rule)

/-- `bh_map.get(dow, [])` on the dict. -/
def bhGet (bh : BHMap) (dow : Int) : List Rule :=
  ((bh.find? (fun p => p.1 == dow)).map (fun p => p.2)).getD []

/-- The per-rule local interval of `expand_business_hours_to_utc`
(`time_utils.py` lines 99–110): the 00:00–00:00 sentinel is the full calendar
day, `start ≤ end` is a same-day interval, `start > end` an overnight interval
ending on the next date.  `datetime.combine(cur_date, t)` is `86400*date + t`. -/
def ruleLocalInterval (date : Int) (r : Rule) : Int × Int :=
  if r.1 = 0 ∧ r.2 = 0 then (86400 * date, 86400 * (date + 1))
  else if r.1 ≤ r.2 then (86400 * date + r.1, 86400 * date + r.2)
  else (86400 * date + r.1, 86400 * (date + 1) + r.2)

/-- Conversion of one rule occurrence to UTC plus the overlap test and the
clip to the window (`time_utils.py` lines 112–121): kept only when it
overlaps [ws, we) and the clipped interval is non-degenerate. -/
def clipRule (tz : Timezone) (ws we : Int) (date : Int) (r : Rule) :
    Option (Int × Int) :=
  let sl := ruleLocalInterval date r
  let su := tz.fromLocal sl.1
  let eu := tz.fromLocal sl.2
  if eu > ws ∧ su < we then
    let cs := max su ws
    let ce := min eu we
    if cs < ce then some (cs, ce) else none
  else none

/-- All clipped UTC intervals contributed by one scan date. -/
def dayIntervals (tz : Timezone) (bh : BHMap) (ws we : Int) (date : Int) :
    List (Int × Int) :=
  (bhGet bh (weekdayOf date)).filterMap (clipRule tz ws we date)

/-- The scan dates `start_date, …, end_date` (inclusive) of the `while` loop. -/
def dateRange (a b : Int) : List Int :=
  (List.range (b - a + 1).toNat).map (fun (i : Nat) => a + (i : Int))

/-- Insert `x` before the first element `y` with `le x y`.  For a total
preorder `le` this is the stable insertion used by `insertionSort`. -/
def insertByLe {α : Type} (le : α → α → Bool) (x : α) : List α → List α
  | [] => [x]
  | y :: ys => if le x y then x :: y :: ys else y :: insertByLe le x ys

/-- Stable insertion sort.  It models Python's stable `sorted`/`list.sort`
with a key function: elements comparing equal keep their original order. -/
def insertionSort {α : Type} (le : α → α → Bool) : List α → List α
  | [] => []
  | x :: xs => insertByLe le x (insertionSort le xs)

/-- The coalescing sweep of `merge_utc_intervals`: `merged[-1]` is the first
argument; an interval whose start is ≤ its end is merged into it. -/
def mergeGo : Int × Int → List (Int × Int) → List (Int × Int)
  | last, [] => [last]
  | last, (s, e) :: rest =>
      if s ≤ last.2 then mergeGo (last.1, max last.2 e) rest
      else last :: mergeGo (s, e) rest

/-- `merge_utc_intervals` (`time_utils.py` lines 127–141): sort by start
(Python's stable `sorted` with key `x[0]`), then coalesce. -/
def merge_utc_intervals (l : List (Int × Int)) : List (Int × Int) :=
  match insertionSort (fun a b => decide (a.1 ≤ b.1)) l with
  | [] => []
  | x :: xs => mergeGo x xs

/-- `expand_business_hours_to_utc` (`time_utils.py` lines 65–125). -/
def expand_business_hours_to_utc (tz : Timezone) (bh : BHMap) (ws we : Int) :
    List (Int × Int) :=
  if bh.isEmpty then [(ws, we)]
  else
    let a := dateOf (tz.toLocal ws) - 1
    let b := dateOf (tz.toLocal we) + 1
    merge_utc_intervals ((dateRange a b).flatMap (dayIntervals tz bh ws we))

/-- A status observation row (`StoreStatus`): UTC timestamp and status. -/
structure Obs where
  ts : Int
  status : String
deriving DecidableEq

/-- A status segment: (start, end, status). -/
abbrev Seg := Int × Int × String

/-- One step of the partitioning pass of `_status_segments` (`uptime.py`
lines 116–123): an observation at or before `ws` overwrites `prev_obs`, one
in (ws, we] is appended to `window_obs`, later ones are ignored. -/
def splitStep (ws we : Int) (acc : Option Obs × List Obs) (o : Obs) :
    Option Obs × List Obs :=
  if o.ts ≤ ws then (some o, acc.2)
  else if o.ts ≤ we then (acc.1, acc.2 ++ [o])
  else acc

/-- The single pass of `_status_segments` over `all_obs`: returns
(`prev_obs`, `window_obs`), i.e. the last observation with timestamp ≤ ws
and, in order, those with ws < timestamp ≤ we. -/
def splitObs (ws we : Int) (l : List Obs) : Option Obs × List Obs :=
  l.foldl (splitStep ws we) (none, [])

/-- The forward sweep of `_status_segments` (`uptime.py` lines 138–151):
close a segment at each status change, then close the final segment at `we`
(dropped when the current time pointer already equals `we`). -/
def sweep (we : Int) : Int → String → List Obs → List Seg
  | curT, curS, [] => if curT < we then [(curT, we, curS)] else []
  | curT, curS, o :: rest =>
      if o.status ≠ curS then (curT, o.ts, curS) :: sweep we o.ts o.status rest
      else sweep we curT curS rest

/-- `_status_segments` (`uptime.py` lines 95–153).  `allObs` is the query
result: the store's observations with timestamp ≤ we, ordered by timestamp
(the `timestamp ≤ we` filter is re-checked by the `elif` in the pass, so the
function is total on any list). -/
def status_segments (allObs : List Obs) (ws we : Int) : List Seg :=
  match h : allObs with
  | [] => [(ws, we, "inactive")]
  | a :: rest =>
      let pw := splitObs ws we allObs
      let currentStatus :=
        match pw.1 with
        | some p => p.status
        | none =>
            match pw.2 with
            | o :: _ => o.status
            | [] => ((a :: rest).getLast (by simp)).status
      sweep we ws currentStatus pw.2

/-- The inner loop body of `_accumulate_overlaps` (`uptime.py` lines
165–175): intersect one segment with one business-hours interval; if the
intersection is non-empty add its duration to the accumulator matching the
segment's status. -/
def overlapStep (seg : Seg) (acc2 : Int × Int) (bh : Int × Int) : Int × Int :=
  let s := max seg.1 bh.1
  let e := min seg.2.1 bh.2
  if s ≥ e then acc2
  else if seg.2.2 = "active" then (acc2.1 + (e - s), acc2.2)
  else (acc2.1, acc2.2 + (e - s))

/-- `_accumulate_overlaps` (`uptime.py` lines 156–176): seconds of overlap of
every (segment, business-hours interval) pair, accumulated into
(uptime, downtime) according to the segment's status. -/
def accumulate_overlaps (segs : List Seg) (bhi : List (Int × Int)) :
    Int × Int :=
  segs.foldl (fun acc seg => bhi.foldl (overlapStep seg) acc) (0, 0)

/-- Round-half-to-even to an integer, the rounding Python's `round` applies.
(`Rat.floor` is the executable floor; it equals `⌊·⌋` by `Rat.floor_def'`.) -/
def roundHalfEven (q : ℚ) : Int :=
  if q - q.floor < 1/2 then q.floor
  else if 1/2 < q - q.floor then q.floor + 1
  else if q.floor % 2 = 0 then q.floor else q.floor + 1

/-- Python's `round(q, 2)`: round to 2 decimal places, ties to even. -/
def round2 (q : ℚ) : ℚ := (roundHalfEven (q * 100) : ℚ) / 100

/-- The per-window body of `metrics_for_store` (`uptime.py` lines 60–77):
business-hours intervals, empty ⇒ (0, 0); otherwise reconstruct the status
timeline and accumulate the overlaps.  Returns accumulated seconds. -/
def windowUpDown (tz : Timezone) (bh : BHMap) (obs : List Obs) (ws we : Int) :
    Int × Int :=
  let bhi := expand_business_hours_to_utc tz bh ws we
  if bhi.isEmpty then (0, 0)
  else accumulate_overlaps (status_segments obs ws we) bhi

/-- The six output fields of `metrics_for_store`. -/
structure MetricsResult where
  uptime_last_hour : Int
  downtime_last_hour : Int
  uptime_last_day : ℚ
  downtime_last_day : ℚ
  uptime_last_week : ℚ
  downtime_last_week : ℚ
deriving DecidableEq

/-- `metrics_for_store` (`uptime.py` lines 23–93): the three windows end at
`now`; hour seconds go through Python's `int(x / 60)` (truncation, `Int.tdiv`),
day and week seconds through `round(x / 3600.0, 2)`. -/
def metrics_for_store (tz : Timezone) (bh : BHMap) (obs : List Obs)
    (now : Int) : MetricsResult :=
  let h := windowUpDown tz bh obs (now - 3600) now
  let d := windowUpDown tz bh obs (now - 86400) now
  let w := windowUpDown tz bh obs (now - 604800) now
  { uptime_last_hour := Int.tdiv h.1 60
    downtime_last_hour := Int.tdiv h.2 60
    uptime_last_day := round2 ((d.1 : ℚ) / 3600)
    downtime_last_day := round2 ((d.2 : ℚ) / 3600)
    uptime_last_week := round2 ((w.1 : ℚ) / 3600)
    downtime_last_week := round2 ((w.2 : ℚ) / 3600) }

/-- The collection loop of `generate_report_optimized`
(`report_generator.py` lines 118–136): futures are consumed in completion
order (`order`); a successful store appends its row, a failure is caught and
recorded in `failed_stores`. -/
def collectRows {α : Type} (compute : String → Except String α)
    (order : List String) : List (String × α) × List String :=
  order.foldl
    (fun acc sid =>
      match compute sid with
      | .ok m => (acc.1 ++ [(sid, m)], acc.2)
      | .error _ => (acc.1, acc.2 ++ [sid]))
    ([], [])

/-- The result assembly of `generate_report_optimized`: collect rows in
completion order, then `results.sort(key=lambda x: x["store_id"])`
(a stable sort by store id). -/
def generate_report_optimized {α : Type} (compute : String → Except String α)
    (order : List String) : List (String × α) :=
  insertionSort (fun a b => decide (a.1 ≤ b.1)) (collectRows compute order).1

/-! ### Helper lemmas about the partitioning pass -/

lemma getLast?_cons_or (o : Obs) (xs : List Obs) (p : Option Obs) :
    ((o :: xs).getLast?).or p = (xs.getLast?).or (some o) := by
  cases xs with
  | nil => simp
  | cons y ys =>
      rw [List.getLast?_cons_cons]
      rcases h : (y :: ys).getLast? with _ | v
      · exact absurd h (by simp)
      · simp

lemma splitObs_foldl (ws we : Int) (l : List Obs) :
    ∀ acc : Option Obs × List Obs,
      l.foldl (splitStep ws we) acc =
        (((l.filter fun o => decide (o.ts ≤ ws)).getLast?).or acc.1,
         acc.2 ++ l.filter fun o => decide (ws < o.ts) && decide (o.ts ≤ we)) := by
  induction l with
  | nil => intro acc; simp
  | cons o rest ih =>
      intro acc
      by_cases h1 : o.ts ≤ ws
      · have h1' : ¬ ws < o.ts := not_lt.mpr h1
        rw [List.foldl_cons, splitStep, if_pos h1, ih]
        simp only [List.filter_cons]
        simp [h1, h1', getLast?_cons_or]
      · by_cases h2 : o.ts ≤ we
        · have h1' : ws < o.ts := not_le.mp h1
          rw [List.foldl_cons, splitStep, if_neg h1, if_pos h2, ih]
          simp only [List.filter_cons]
          simp [h1, h1', h2]
        · rw [List.foldl_cons, splitStep, if_neg h1, if_neg h2, ih]
          simp only [List.filter_cons]
          simp [h1, h2]

lemma splitObs_fst (ws we : Int) (l : List Obs) :
    (splitObs ws we l).1 = (l.filter fun o => decide (o.ts ≤ ws)).getLast? := by
  rw [splitObs, splitObs_foldl]
  simp

lemma splitObs_snd (ws we : Int) (l : List Obs) :
    (splitObs ws we l).2
      = l.filter fun o => decide (ws < o.ts) && decide (o.ts ≤ we) := by
  rw [splitObs, splitObs_foldl]
  simp

/-! ### C2: empty rule mapping means the whole window is open -/

/-- C2: for every store whose business-hours rule mapping is empty and every
UTC window [ws, we) with ws < we, `expand_business_hours_to_utc` returns
exactly the single interval [ws, we), for every timezone. -/
theorem expand_empty_rules (tz : Timezone) (ws we : Int) (_h : ws < we) :
    expand_business_hours_to_utc tz [] ws we = [(ws, we)] := rfl

theorem expand_empty_rules_witness :
    (0 : Int) < 10 ∧ expand_business_hours_to_utc tzUTC [] 0 10 = [(0, 10)] :=
  ⟨by decide, expand_empty_rules tzUTC 0 10 (by decide)⟩

/-! ### C9: the "last observation overall" fallback is unreachable -/

/-- C9: under the data-access query's own filter (every fetched observation
has timestamp ≤ we), the fallback branch of `_status_segments` — taken only
when the observation list is non-empty yet `prev_obs` is `None` and
`window_obs` is empty — is unreachable: whenever the list is non-empty and
all timestamps are ≤ we, `prev_obs = None` forces `window_obs ≠ []`. -/
theorem fallback_branch_unreachable (obs : List Obs) (ws we : Int)
    (hne : obs ≠ []) (hle : ∀ o ∈ obs, o.ts ≤ we)
    (hprev : (splitObs ws we obs).1 = none) :
    (splitObs ws we obs).2 ≠ [] := by
  cases obs with
  | nil => exact absurd rfl hne
  | cons o rest =>
      rw [splitObs_snd]
      rw [splitObs_fst] at hprev
      have h1 : ¬ o.ts ≤ ws := by
        intro h
        have hmem : o ∈ (o :: rest).filter fun o => decide (o.ts ≤ ws) := by
          simp [List.mem_filter, h]
        rw [List.getLast?_eq_none_iff.mp hprev] at hmem
        exact List.not_mem_nil o hmem
      have h2 : o.ts ≤ we := hle o (by simp)
      intro hcon
      have : o ∈ (o :: rest).filter
          fun o => decide (ws < o.ts) && decide (o.ts ≤ we) := by
        simp [List.mem_filter, not_le.mp h1, h2]
      rw [hcon] at this
      exact List.not_mem_nil o this

theorem fallback_branch_unreachable_witness :
    (splitObs 0 10 [⟨5, "active"⟩] ).2 ≠ [] :=
  fallback_branch_unreachable [⟨5, "active"⟩] 0 10 (by decide)
    (by intro o ho; simp at ho; simp [ho]) (by decide)

/-! ### General lemmas about the stable insertion sort -/

lemma insertByLe_perm {α : Type} (le : α → α → Bool) (x : α) :
    ∀ l : List α, (insertByLe le x l).Perm (x :: l) := by
  intro l
  induction l with
  | nil => rfl
  | cons y ys ih =>
      rw [insertByLe]
      by_cases h : le x y
      · rw [if_pos h]
      · rw [if_neg h]
        exact (List.Perm.cons y ih).trans (List.Perm.swap x y ys)

lemma insertionSort_perm {α : Type} (le : α → α → Bool) :
    ∀ l : List α, (insertionSort le l).Perm l := by
  intro l
  induction l with
  | nil => rfl
  | cons x xs ih =>
      rw [insertionSort]
      exact (insertByLe_perm le x (insertionSort le xs)).trans
        (List.Perm.cons x ih)

lemma mem_insertByLe {α : Type} (le : α → α → Bool) (x a : α) (l : List α) :
    a ∈ insertByLe le x l ↔ a = x ∨ a ∈ l := by
  have := (insertByLe_perm le x l).mem_iff (a := a)
  simpa using this

lemma insertByLe_pairwise {α : Type} (le : α → α → Bool)
    (htrans : ∀ a b c, le a b → le b c → le a c)
    (htot : ∀ a b, le a b ∨ le b a) (x : α) :
    ∀ l : List α, l.Pairwise (fun a b => le a b = true) →
      (insertByLe le x l).Pairwise (fun a b => le a b = true) := by
  intro l
  induction l with
  | nil => intro _; simp [insertByLe]
  | cons y ys ih =>
      intro hp
      have hy := (List.pairwise_cons.mp hp).1
      have hys := (List.pairwise_cons.mp hp).2
      rw [insertByLe]
      by_cases h : le x y
      · rw [if_pos h]
        refine List.pairwise_cons.mpr ⟨?_, hp⟩
        intro b hb
        rcases List.mem_cons.mp hb with hb | hb
        · rw [hb]; exact h
        · exact htrans x y b h (hy b hb)
      · rw [if_neg h]
        refine List.pairwise_cons.mpr ⟨?_, ih hys⟩
        intro b hb
        rcases (mem_insertByLe le x b ys).mp hb with hb | hb
        · rw [hb]
          rcases htot y x with hyx | hxy
          · exact hyx
          · exact absurd hxy h
        · exact hy b hb

lemma insertionSort_pairwise {α : Type} (le : α → α → Bool)
    (htrans : ∀ a b c, le a b → le b c → le a c)
    (htot : ∀ a b, le a b ∨ le b a) :
    ∀ l : List α, (insertionSort le l).Pairwise (fun a b => le a b = true) := by
  intro l
  induction l with
  | nil => simp [insertionSort]
  | cons x xs ih =>
      rw [insertionSort]
      exact insertByLe_pairwise le htrans htot x _ ih

lemma insertionSort_of_pairwise {α : Type} (le : α → α → Bool) :
    ∀ l : List α, l.Pairwise (fun a b => le a b = true) →
      insertionSort le l = l := by
  intro l
  induction l with
  | nil => intro _; rfl
  | cons x xs ih =>
      intro hp
      rw [insertionSort, ih (List.pairwise_cons.mp hp).2]
      cases xs with
      | nil => rfl
      | cons y ys =>
          rw [insertByLe,
            if_pos ((List.pairwise_cons.mp hp).1 y (by simp))]

/-! ### C8: merging an already-normalized interval list is a no-op -/

/-- A normalized interval list: each interval is non-degenerate and each
interval ends strictly before the next one starts (which also makes the list
sorted ascending by start). -/
def NormalizedIntervals (l : List (Int × Int)) : Prop :=
  l.Pairwise (fun a b => a.2 < b.1) ∧ ∀ p ∈ l, p.1 < p.2

lemma mergeGo_of_separated :
    ∀ (xs : List (Int × Int)) (x : Int × Int),
      (x :: xs).Pairwise (fun a b => a.2 < b.1) → mergeGo x xs = x :: xs := by
  intro xs
  induction xs with
  | nil => intro x _; rfl
  | cons y ys ih =>
      intro x hp
      have hxy : x.2 < y.1 := (List.pairwise_cons.mp hp).1 y (by simp)
      rw [mergeGo]
      rw [if_neg (by omega : ¬ y.1 ≤ x.2)]
      rw [ih y (List.pairwise_cons.mp hp).2]

lemma sort_of_normalized (l : List (Int × Int))
    (h : NormalizedIntervals l) :
    insertionSort (fun a b => decide (a.1 ≤ b.1)) l = l := by
  apply insertionSort_of_pairwise
  exact List.Pairwise.imp_of_mem
    (fun {a b} ha _ hr => by
      have := h.2 a ha
      simp only [decide_eq_true_eq]
      omega)
    h.1

lemma merge_eq_self_of_normalized (l : List (Int × Int))
    (h : NormalizedIntervals l) : merge_utc_intervals l = l := by
  rw [merge_utc_intervals]
  rw [sort_of_normalized l h]
  cases l with
  | nil => rfl
  | cons x xs => exact mergeGo_of_separated xs x h.1

/-- C8: for every interval list that is already normalized (sorted ascending
by start, each start < end, each start strictly greater than the previous
end), `merge_utc_intervals` returns its input unchanged. -/
theorem merge_idempotent_on_normalized (l : List (Int × Int))
    (h : NormalizedIntervals l) : merge_utc_intervals l = l :=
  merge_eq_self_of_normalized l h

theorem merge_idempotent_on_normalized_witness :
    merge_utc_intervals [(0, 1), (2, 3), (7, 10)] = [(0, 1), (2, 3), (7, 10)] :=
  merge_idempotent_on_normalized [(0, 1), (2, 3), (7, 10)] (by
    constructor
    · decide
    · decide)

/-! ### C1: the status segments partition the window -/

/-- `coversFrom a segs b`: the segments are contiguous and non-degenerate,
starting at `a` and ending at `b`. -/
def coversFrom : Int → List Seg → Int → Prop
  | a, [], b => a = b
  | a, s :: rest, b => s.1 = a ∧ a < s.2.1 ∧ coversFrom s.2.1 rest b

/-- The partition property of the claim: the segment list is non-empty, its
first segment starts at `ws`, its last segment ends at `we`, each segment's
end equals the next segment's start, and every segment has start < end. -/
def IsPartitionOf (segs : List Seg) (ws we : Int) : Prop :=
  segs ≠ [] ∧
  (segs.head?.map fun s => s.1) = some ws ∧
  (segs.getLast?.map fun s => s.2.1) = some we ∧
  (∀ p ∈ segs.zip segs.tail, p.1.2.1 = p.2.1) ∧
  ∀ s ∈ segs, s.1 < s.2.1

lemma coversFrom_getLast :
    ∀ (segs : List Seg) (a b : Int), coversFrom a segs b → segs ≠ [] →
      (segs.getLast?.map fun s => s.2.1) = some b := by
  intro segs
  induction segs with
  | nil => intro a b _ hne; exact absurd rfl hne
  | cons s rest ih =>
      intro a b hc _
      cases rest with
      | nil =>
          have : s.2.1 = b := hc.2.2
          simp [this]
      | cons r t =>
          have := ih s.2.1 b hc.2.2 (by simp)
          rw [List.getLast?_cons_cons]
          exact this

lemma coversFrom_zip :
    ∀ (segs : List Seg) (a b : Int), coversFrom a segs b →
      ∀ p ∈ segs.zip segs.tail, p.1.2.1 = p.2.1 := by
  intro segs
  induction segs with
  | nil => intro a b _ p hp; simp at hp
  | cons s rest ih =>
      intro a b hc p hp
      cases rest with
      | nil => simp at hp
      | cons r t =>
          simp only [List.tail_cons, List.zip_cons_cons, List.mem_cons] at hp
          rcases hp with hp | hp
          · subst hp
            exact (hc.2.2.1).symm
          · exact ih s.2.1 b hc.2.2 p hp

lemma coversFrom_bounds :
    ∀ (segs : List Seg) (a b : Int), coversFrom a segs b →
      ∀ s ∈ segs, s.1 < s.2.1 := by
  intro segs
  induction segs with
  | nil => intro a b _ s hs; simp at hs
  | cons x rest ih =>
      intro a b hc s hs
      rcases List.mem_cons.mp hs with hs | hs
      · subst hs
        have := hc.1
        have := hc.2.1
        omega
      · exact ih x.2.1 b hc.2.2 s hs

lemma coversFrom_isPartition (segs : List Seg) (ws we : Int)
    (hc : coversFrom ws segs we) (hne : segs ≠ []) :
    IsPartitionOf segs ws we := by
  refine ⟨hne, ?_, coversFrom_getLast segs ws we hc hne,
    coversFrom_zip segs ws we hc, coversFrom_bounds segs ws we hc⟩
  cases segs with
  | nil => exact absurd rfl hne
  | cons s rest => simp [hc.1]

/-- The sweep produces a strict partition when the in-window observations are
strictly ascending, all inside (curT, we]. -/
lemma sweep_coversFrom (we : Int) :
    ∀ (l : List Obs) (curT : Int) (curS : String),
      curT < we → (∀ o ∈ l, curT < o.ts ∧ o.ts ≤ we) →
      l.Pairwise (fun a b => a.ts < b.ts) →
      coversFrom curT (sweep we curT curS l) we := by
  intro l
  induction l with
  | nil =>
      intro curT curS hlt _ _
      rw [sweep, if_pos hlt]
      exact ⟨rfl, hlt, rfl⟩
  | cons o rest ih =>
      intro curT curS hlt hb hp
      have hbo := hb o (by simp)
      have hrest : ∀ q ∈ rest, o.ts < q.ts :=
        fun q hq => (List.pairwise_cons.mp hp).1 q hq
      have hbrest : ∀ q ∈ rest, o.ts < q.ts ∧ q.ts ≤ we :=
        fun q hq => ⟨hrest q hq, (hb q (List.mem_cons_of_mem o hq)).2⟩
      rw [sweep]
      by_cases hst : o.status ≠ curS
      · rw [if_pos hst]
        refine ⟨rfl, hbo.1, ?_⟩
        rcases lt_or_eq_of_le hbo.2 with hlt2 | heq
        · exact ih o.ts o.status hlt2 hbrest (List.pairwise_cons.mp hp).2
        · have hrestnil : rest = [] := by
            cases rest with
            | nil => rfl
            | cons q t =>
                have h1 := hrest q (by simp)
                have h2 := (hb q (by simp)).2
                omega
          subst hrestnil
          rw [sweep, if_neg (by omega : ¬ o.ts < we)]
          exact heq
      · rw [if_neg hst]
        exact ih curT curS hlt
          (fun q hq => ⟨lt_trans hbo.1 (hrest q hq), (hbrest q hq).2⟩)
          (List.pairwise_cons.mp hp).2

/-- Amended C1: for every window [ws, we) with ws < we and every observation
list sorted strictly ascending by timestamp (pairwise-distinct timestamps),
the segment list of `_status_segments` is a partition of [ws, we): first
segment starts at ws, last ends at we, consecutive segments are contiguous,
and each segment has start < end.  (The original claim over arbitrary ordered
observation lists fails when two observations share a timestamp; see the
counterexample.) -/
theorem status_segments_partition (obs : List Obs) (ws we : Int)
    (hwe : ws < we) (hsort : obs.Pairwise (fun a b => a.ts < b.ts)) :
    IsPartitionOf (status_segments obs ws we) ws we := by
  cases obs with
  | nil =>
      refine coversFrom_isPartition _ ws we ?_ (by simp [status_segments])
      show coversFrom ws [(ws, we, "inactive")] we
      exact ⟨rfl, hwe, rfl⟩
  | cons a rest =>
      have hsnd := splitObs_snd ws we (a :: rest)
      have hwin : ∀ o ∈ (splitObs ws we (a :: rest)).2,
          ws < o.ts ∧ o.ts ≤ we := by
        intro o ho
        rw [hsnd] at ho
        have := List.mem_filter.mp ho
        simp only [Bool.and_eq_true, decide_eq_true_eq] at this
        exact this.2
      have hwp : ((splitObs ws we (a :: rest)).2).Pairwise
          (fun a b => a.ts < b.ts) := by
        rw [hsnd]
        exact hsort.filter _
      have hc : coversFrom ws (status_segments (a :: rest) ws we) we := by
        show coversFrom ws
          (sweep we ws _ (splitObs ws we (a :: rest)).2) we
        exact sweep_coversFrom we _ ws _ hwe hwin hwp
      refine coversFrom_isPartition _ ws we hc ?_
      intro hnil
      rw [hnil] at hc
      have : ws = we := hc
      omega

/-- C1 fails as stated: this observation list is ordered (ascending
timestamps, duplicates at the same instant as the data model tolerates), yet
the segment list contains the zero-length segment (50, 50, "active"), so it
is not a partition of [0, 100). -/
theorem status_segments_partition_counterexample :
    ([⟨10, "inactive"⟩, ⟨50, "active"⟩, ⟨50, "inactive"⟩] : List Obs).Pairwise
        (fun a b => a.ts ≤ b.ts) ∧
    status_segments [⟨10, "inactive"⟩, ⟨50, "active"⟩, ⟨50, "inactive"⟩] 0 100
      = [(0, 50, "inactive"), (50, 50, "active"), (50, 100, "inactive")] ∧
    ¬ IsPartitionOf
        (status_segments
          [⟨10, "inactive"⟩, ⟨50, "active"⟩, ⟨50, "inactive"⟩] 0 100)
        0 100 := by
  refine ⟨by decide, by decide, ?_⟩
  intro h
  have := h.2.2.2.2 (50, 50, "active") (by decide)
  simp at this

theorem status_segments_partition_witness :
    (0 : Int) < 100 ∧
    ([⟨10, "inactive"⟩, ⟨60, "active"⟩] : List Obs).Pairwise
      (fun a b => a.ts < b.ts) ∧
    IsPartitionOf (status_segments [⟨10, "inactive"⟩, ⟨60, "active"⟩] 0 100)
      0 100 :=
  ⟨by decide, by decide,
    status_segments_partition [⟨10, "inactive"⟩, ⟨60, "active"⟩] 0 100
      (by decide) (by decide)⟩

/-! ### Helper lemmas about `_accumulate_overlaps` -/

/-- Length of the intersection of a segment with an interval. -/
def ovl (seg : Seg) (bh : Int × Int) : Int :=
  max 0 (min seg.2.1 bh.2 - max seg.1 bh.1)

lemma overlapStep_sum (seg : Seg) (acc2 : Int × Int) (bh : Int × Int) :
    (overlapStep seg acc2 bh).1 + (overlapStep seg acc2 bh).2
      = acc2.1 + acc2.2 + ovl seg bh := by
  rw [overlapStep, ovl]
  by_cases h : max seg.1 bh.1 ≥ min seg.2.1 bh.2
  · rw [if_pos h]; omega
  · rw [if_neg h]
    by_cases hs : seg.2.2 = "active"
    · rw [if_pos hs]; simp; omega
    · rw [if_neg hs]; simp; omega

lemma overlapStep_le (seg : Seg) (acc2 : Int × Int) (bh : Int × Int) :
    acc2.1 ≤ (overlapStep seg acc2 bh).1 ∧
    acc2.2 ≤ (overlapStep seg acc2 bh).2 := by
  rw [overlapStep]
  by_cases h : max seg.1 bh.1 ≥ min seg.2.1 bh.2
  · rw [if_pos h]; omega
  · rw [if_neg h]
    by_cases hs : seg.2.2 = "active"
    · rw [if_pos hs]
      constructor <;> simp <;> omega
    · rw [if_neg hs]
      constructor <;> simp <;> omega

lemma foldl_overlapStep_sum (seg : Seg) :
    ∀ (bhi : List (Int × Int)) (acc2 : Int × Int),
      (bhi.foldl (overlapStep seg) acc2).1 + (bhi.foldl (overlapStep seg) acc2).2
        = acc2.1 + acc2.2 + (bhi.map (ovl seg)).sum := by
  intro bhi
  induction bhi with
  | nil => intro acc2; simp
  | cons bh rest ih =>
      intro acc2
      rw [List.foldl_cons, ih, overlapStep_sum]
      simp
      ring

lemma foldl_overlapStep_le (seg : Seg) :
    ∀ (bhi : List (Int × Int)) (acc2 : Int × Int),
      acc2.1 ≤ (bhi.foldl (overlapStep seg) acc2).1 ∧
      acc2.2 ≤ (bhi.foldl (overlapStep seg) acc2).2 := by
  intro bhi
  induction bhi with
  | nil => intro acc2; simp
  | cons bh rest ih =>
      intro acc2
      have h1 := overlapStep_le seg acc2 bh
      have h2 := ih (overlapStep seg acc2 bh)
      rw [List.foldl_cons]
      omega

lemma accumulate_overlaps_sum (segs : List Seg) (bhi : List (Int × Int)) :
    (accumulate_overlaps segs bhi).1 + (accumulate_overlaps segs bhi).2
      = (segs.map fun seg => (bhi.map (ovl seg)).sum).sum := by
  rw [accumulate_overlaps]
  suffices h : ∀ acc : Int × Int,
      (segs.foldl (fun acc seg => bhi.foldl (overlapStep seg) acc) acc).1 +
      (segs.foldl (fun acc seg => bhi.foldl (overlapStep seg) acc) acc).2
        = acc.1 + acc.2 + (segs.map fun seg => (bhi.map (ovl seg)).sum).sum by
    rw [h (0, 0)]; simp
  induction segs with
  | nil => intro acc; simp
  | cons seg rest ih =>
      intro acc
      rw [List.foldl_cons, ih, foldl_overlapStep_sum]
      simp
      ring

lemma accumulate_overlaps_nonneg (segs : List Seg) (bhi : List (Int × Int)) :
    0 ≤ (accumulate_overlaps segs bhi).1 ∧
    0 ≤ (accumulate_overlaps segs bhi).2 := by
  rw [accumulate_overlaps]
  suffices h : ∀ acc : Int × Int,
      acc.1 ≤ (segs.foldl (fun acc seg => bhi.foldl (overlapStep seg) acc) acc).1 ∧
      acc.2 ≤ (segs.foldl (fun acc seg => bhi.foldl (overlapStep seg) acc) acc).2 by
    have := h (0, 0)
    simpa using this
  induction segs with
  | nil => intro acc; simp
  | cons seg rest ih =>
      intro acc
      have h1 := foldl_overlapStep_le seg bhi acc
      have h2 := ih (bhi.foldl (overlapStep seg) acc)
      rw [List.foldl_cons]
      omega

lemma windowUpDown_nonneg (tz : Timezone) (bh : BHMap) (obs : List Obs)
    (ws we : Int) :
    0 ≤ (windowUpDown tz bh obs ws we).1 ∧
    0 ≤ (windowUpDown tz bh obs ws we).2 := by
  rw [windowUpDown]
  by_cases h : (expand_business_hours_to_utc tz bh ws we).isEmpty
  · rw [if_pos h]; exact ⟨le_refl 0, le_refl 0⟩
  · rw [if_neg h]; exact accumulate_overlaps_nonneg _ _

/-! ### C7: unit conversion of the accumulated seconds -/

/-- `v` is `q` rounded to exactly 2 decimal places: `v` is an integer number
of hundredths and differs from `q` by at most half a hundredth. -/
def RoundedTo2 (v q : ℚ) : Prop :=
  (∃ k : Int, v = (k : ℚ) / 100) ∧ |v - q| ≤ 1 / 200

lemma roundHalfEven_abs (q : ℚ) : |(roundHalfEven q : ℚ) - q| ≤ 1 / 2 := by
  have hf : q.floor = ⌊q⌋ := by rw [Rat.floor_def', Rat.floor_def]
  have h0 : (⌊q⌋ : ℚ) ≤ q := Int.floor_le q
  have h1 : q < (⌊q⌋ : ℚ) + 1 := Int.lt_floor_add_one q
  rw [roundHalfEven, hf]
  by_cases hlt : q - ⌊q⌋ < 1 / 2
  · rw [if_pos hlt]
    rw [abs_le]
    constructor <;> linarith
  · rw [if_neg hlt]
    by_cases hgt : 1 / 2 < q - ⌊q⌋
    · rw [if_pos hgt]
      rw [abs_le]
      push_cast
      constructor <;> linarith
    · rw [if_neg hgt]
      have heq : q - ⌊q⌋ = 1 / 2 := by linarith
      by_cases hpar : ⌊q⌋ % 2 = 0
      · rw [if_pos hpar, abs_le]
        constructor <;> linarith
      · rw [if_neg hpar, abs_le]
        push_cast
        constructor <;> linarith

lemma round2_roundedTo2 (q : ℚ) : RoundedTo2 (round2 q) q := by
  constructor
  · exact ⟨roundHalfEven (q * 100), rfl⟩
  · rw [round2]
    have h := roundHalfEven_abs (q * 100)
    have : (roundHalfEven (q * 100) : ℚ) / 100 - q
        = ((roundHalfEven (q * 100) : ℚ) - q * 100) / 100 := by ring
    rw [this, abs_div]
    rw [show |(100 : ℚ)| = 100 by norm_num]
    rw [div_le_div_iff₀ (by norm_num) (by norm_num)]
    linarith

lemma rat_floor_intCast (n : Int) : ((n : ℚ)).floor = n := by
  rw [Rat.floor_def']
  simp

lemma roundHalfEven_intCast (n : Int) : roundHalfEven ((n : ℚ)) = n := by
  rw [roundHalfEven, rat_floor_intCast, sub_self,
    if_pos (by norm_num : (0 : ℚ) < 1 / 2)]

lemma round2_intCast (n : Int) : round2 ((n : ℚ)) = n := by
  rw [round2]
  rw [show ((n : ℚ)) * 100 = ((n * 100 : Int) : ℚ) by push_cast; ring]
  rw [roundHalfEven_intCast]
  push_cast
  rw [mul_div_assoc]
  norm_num

lemma tdiv_eq_floor_div (a : Int) (h : 0 ≤ a) :
    a.tdiv 60 = ⌊(a : ℚ) / 60⌋ := by
  rw [show ((60 : ℚ)) = ((60 : ℕ) : ℚ) by norm_num,
    Rat.floor_intCast_div_natCast]
  rcases a with n | n
  · simp [Int.tdiv, Int.ediv]
  · exact absurd h (by simp)

/-- C7: `metrics_for_store` converts the accumulated seconds per window as
follows: the hour window's uptime and downtime are the floor (integer
truncation of the non-negative quotient) of seconds/60; the day and week
windows' uptime and downtime are seconds/3600 rounded to exactly 2 decimal
places. -/
theorem metrics_unit_conversion (tz : Timezone) (bh : BHMap) (obs : List Obs)
    (now : Int) :
    (metrics_for_store tz bh obs now).uptime_last_hour
        = ⌊((windowUpDown tz bh obs (now - 3600) now).1 : ℚ) / 60⌋ ∧
    (metrics_for_store tz bh obs now).downtime_last_hour
        = ⌊((windowUpDown tz bh obs (now - 3600) now).2 : ℚ) / 60⌋ ∧
    RoundedTo2 (metrics_for_store tz bh obs now).uptime_last_day
        (((windowUpDown tz bh obs (now - 86400) now).1 : ℚ) / 3600) ∧
    RoundedTo2 (metrics_for_store tz bh obs now).downtime_last_day
        (((windowUpDown tz bh obs (now - 86400) now).2 : ℚ) / 3600) ∧
    RoundedTo2 (metrics_for_store tz bh obs now).uptime_last_week
        (((windowUpDown tz bh obs (now - 604800) now).1 : ℚ) / 3600) ∧
    RoundedTo2 (metrics_for_store tz bh obs now).downtime_last_week
        (((windowUpDown tz bh obs (now - 604800) now).2 : ℚ) / 3600) := by
  have hh := windowUpDown_nonneg tz bh obs (now - 3600) now
  refine ⟨?_, ?_, ?_, ?_, ?_, ?_⟩
  · exact tdiv_eq_floor_div _ hh.1
  · exact tdiv_eq_floor_div _ hh.2
  · exact round2_roundedTo2 _
  · exact round2_roundedTo2 _
  · exact round2_roundedTo2 _
  · exact round2_roundedTo2 _

/-! ### C4: stores with no observations -/

lemma windowUpDown_open_noobs (tz : Timezone) (ws we : Int) (hlt : ws < we) :
    windowUpDown tz [] [] ws we = (0, we - ws) := by
  rw [windowUpDown]
  have he : expand_business_hours_to_utc tz [] ws we = [(ws, we)] := rfl
  rw [he]
  rw [if_neg (by simp)]
  have hs : status_segments [] ws we = [(ws, we, "inactive")] := rfl
  rw [hs, accumulate_overlaps]
  simp only [List.foldl_cons, List.foldl_nil]
  rw [overlapStep]
  simp only [max_self, min_self]
  rw [if_neg (by omega : ¬ ws ≥ we)]
  rw [if_neg (by simp : ¬ ((ws, we, "inactive") : Seg).2.2 = "active")]
  simp

/-- Amended C4: for every store with no observations at all and an empty
business-hours rule mapping (the 24×7 default), the reconstructed timeline
for any window is a single segment covering the whole window with status
"inactive", and the reported metrics are uptime = 0 and downtime = the full
window length in the window's output unit: 60 minutes for the hour window,
24.0 and 168.0 hours for the day and week windows.  (The original claim,
which does not restrict the business hours, fails: business-hours clipping
reduces the reported downtime; see the counterexample.) -/
theorem no_observations_metrics (tz : Timezone) (now : Int) :
    (∀ ws we : Int, status_segments [] ws we = [(ws, we, "inactive")]) ∧
    metrics_for_store tz [] [] now =
      { uptime_last_hour := 0, downtime_last_hour := 60,
        uptime_last_day := 0, downtime_last_day := 24,
        uptime_last_week := 0, downtime_last_week := 168 } := by
  constructor
  · intro ws we; rfl
  · have h1 : windowUpDown tz [] [] (now - 3600) now = (0, 3600) := by
      rw [windowUpDown_open_noobs tz _ _ (by omega)]
      norm_num
    have h2 : windowUpDown tz [] [] (now - 86400) now = (0, 86400) := by
      rw [windowUpDown_open_noobs tz _ _ (by omega)]
      norm_num
    have h3 : windowUpDown tz [] [] (now - 604800) now = (0, 604800) := by
      rw [windowUpDown_open_noobs tz _ _ (by omega)]
      norm_num
    have e1 : ((0 : Int) : ℚ) / 3600 = ((0 : Int) : ℚ) := by norm_num
    have e2 : ((86400 : Int) : ℚ) / 3600 = ((24 : Int) : ℚ) := by norm_num
    have e3 : ((604800 : Int) : ℚ) / 3600 = ((168 : Int) : ℚ) := by norm_num
    simp only [metrics_for_store, h1, h2, h3, e1, e2, e3, round2_intCast]
    rw [MetricsResult.mk.injEq]
    refine ⟨by decide, by decide, by norm_num, by norm_num, by norm_num,
      by norm_num⟩

/-- The business-hours map "09:00–17:00 local, every weekday". -/
def bh917 : BHMap :=
  [(0, [(32400, 61200)]), (1, [(32400, 61200)]), (2, [(32400, 61200)]),
   (3, [(32400, 61200)]), (4, [(32400, 61200)]), (5, [(32400, 61200)]),
   (6, [(32400, 61200)])]

/-- C4 fails as stated: a store in UTC with business hours 09:00–17:00 every
day and no observations at all reports downtime_last_day = 8.00, not the
24.0 hours the claim demands (clipping to business hours caps the downtime). -/
theorem no_observations_metrics_counterexample :
    (metrics_for_store tzUTC bh917 [] 604800).uptime_last_day = 0 ∧
    (metrics_for_store tzUTC bh917 [] 604800).downtime_last_day = 8 ∧
    (metrics_for_store tzUTC bh917 [] 604800).downtime_last_day ≠ 24 := by
  have hw : windowUpDown tzUTC bh917 [] (604800 - 86400) 604800
      = (0, 28800) := by decide
  have e0 : ((0 : Int) : ℚ) / 3600 = ((0 : Int) : ℚ) := by norm_num
  have e8 : ((28800 : Int) : ℚ) / 3600 = ((8 : Int) : ℚ) := by norm_num
  refine ⟨?_, ?_, ?_⟩ <;>
    simp only [metrics_for_store, hw, e0, e8, round2_intCast] <;>
    norm_num

/-! ### C10: conservation — uptime + downtime equals the business-hours total -/

/-- Weak covering: the segments are contiguous from `a` to `b`, allowing
zero-length segments (which arise from duplicate observation timestamps). -/
def coversFromW : Int → List Seg → Int → Prop
  | a, [], b => a = b
  | a, s :: rest, b => s.1 = a ∧ a ≤ s.2.1 ∧ coversFromW s.2.1 rest b

lemma coversFromW_le :
    ∀ (segs : List Seg) (a b : Int), coversFromW a segs b → a ≤ b := by
  intro segs
  induction segs with
  | nil => intro a b h; exact le_of_eq h
  | cons s rest ih =>
      intro a b h
      have := ih s.2.1 b h.2.2
      have := h.2.1
      omega

lemma isPartition_coversW :
    ∀ (segs : List Seg) (ws we : Int), IsPartitionOf segs ws we →
      coversFromW ws segs we := by
  intro segs
  induction segs with
  | nil => intro ws we h; exact absurd rfl h.1
  | cons s rest ih =>
      intro ws we h
      have hhead : s.1 = ws := by
        have := h.2.1
        simp at this
        exact this
      cases rest with
      | nil =>
          have hlast : s.2.1 = we := by
            have := h.2.2.1
            simp at this
            exact this
          have hb := h.2.2.2.2 s (by simp)
          exact ⟨hhead, by omega, hlast⟩
      | cons r t =>
          have hzip : s.2.1 = r.1 := by
            have := h.2.2.2.1 (s, r) (by simp)
            exact this
          have hb := h.2.2.2.2 s (by simp)
          refine ⟨hhead, by omega, ?_⟩
          rw [hzip]
          refine ih r.1 we ⟨by simp, by simp, ?_, ?_, ?_⟩
          · have := h.2.2.1
            rw [List.getLast?_cons_cons] at this
            exact this
          · intro p hp
            refine h.2.2.2.1 p ?_
            simp only [List.tail_cons, List.zip_cons_cons, List.mem_cons]
            right
            simpa using hp
          · intro q hq
            exact h.2.2.2.2 q (List.mem_cons_of_mem s hq)

lemma sweep_coversFromW (we : Int) :
    ∀ (l : List Obs) (curT : Int) (curS : String),
      curT ≤ we → (∀ o ∈ l, curT ≤ o.ts ∧ o.ts ≤ we) →
      l.Pairwise (fun a b => a.ts ≤ b.ts) →
      coversFromW curT (sweep we curT curS l) we := by
  intro l
  induction l with
  | nil =>
      intro curT curS hle _ _
      rw [sweep]
      by_cases h : curT < we
      · rw [if_pos h]
        exact ⟨rfl, by show curT ≤ we; omega, rfl⟩
      · rw [if_neg h]
        show curT = we
        omega
  | cons o rest ih =>
      intro curT curS hle hb hp
      have hbo := hb o (by simp)
      have hrest : ∀ q ∈ rest, o.ts ≤ q.ts :=
        fun q hq => (List.pairwise_cons.mp hp).1 q hq
      rw [sweep]
      by_cases hst : o.status ≠ curS
      · rw [if_pos hst]
        refine ⟨rfl, hbo.1, ?_⟩
        exact ih o.ts o.status hbo.2
          (fun q hq => ⟨hrest q hq, (hb q (List.mem_cons_of_mem o hq)).2⟩)
          (List.pairwise_cons.mp hp).2
      · rw [if_neg hst]
        exact ih curT curS hle
          (fun q hq => ⟨le_trans hbo.1 (hrest q hq),
            (hb q (List.mem_cons_of_mem o hq)).2⟩)
          (List.pairwise_cons.mp hp).2

lemma status_segments_coversW (obs : List Obs) (ws we : Int)
    (hle : ws ≤ we) (hsort : obs.Pairwise (fun a b => a.ts ≤ b.ts)) :
    coversFromW ws (status_segments obs ws we) we := by
  cases obs with
  | nil =>
      show coversFromW ws [(ws, we, "inactive")] we
      exact ⟨rfl, hle, rfl⟩
  | cons a rest =>
      have hsnd := splitObs_snd ws we (a :: rest)
      have hwin : ∀ o ∈ (splitObs ws we (a :: rest)).2,
          ws ≤ o.ts ∧ o.ts ≤ we := by
        intro o ho
        rw [hsnd] at ho
        have := List.mem_filter.mp ho
        simp only [Bool.and_eq_true, decide_eq_true_eq] at this
        exact ⟨le_of_lt this.2.1, this.2.2⟩
      have hwp : ((splitObs ws we (a :: rest)).2).Pairwise
          (fun a b => a.ts ≤ b.ts) := by
        rw [hsnd]
        exact hsort.filter _
      show coversFromW ws
        (sweep we ws _ (splitObs ws we (a :: rest)).2) we
      exact sweep_coversFromW we _ ws _ hle hwin hwp

lemma sum_map_add_int {α : Type} (l : List α) (f g : α → Int) :
    (l.map fun x => f x + g x).sum = (l.map f).sum + (l.map g).sum := by
  induction l with
  | nil => simp
  | cons x xs ih => simp [ih]; ring

lemma sum_map_swap {α β : Type} (l1 : List α) (l2 : List β) (f : α → β → Int) :
    (l1.map fun x => (l2.map fun y => f x y).sum).sum
      = (l2.map fun y => (l1.map fun x => f x y).sum).sum := by
  induction l1 with
  | nil => simp
  | cons x xs ih =>
      simp only [List.map_cons, List.sum_cons, ih]
      rw [← sum_map_add_int]

lemma covers_ovl_sum (we : Int) (bhp : Int × Int) :
    ∀ (segs : List Seg) (a : Int), coversFromW a segs we → bhp.1 ≤ bhp.2 →
      bhp.2 ≤ we →
      (segs.map fun seg => ovl seg bhp).sum
        = max 0 (min we bhp.2 - max a bhp.1) := by
  intro segs
  induction segs with
  | nil =>
      intro a hc hbe hwe
      have ha : a = we := hc
      subst ha
      simp only [List.map_nil, List.sum_nil]
      omega
  | cons s rest ih =>
      intro a hc hbe hwe
      have h1 : s.1 = a := hc.1
      have h2 : a ≤ s.2.1 := hc.2.1
      have h3 := hc.2.2
      have ht : s.2.1 ≤ we := coversFromW_le rest s.2.1 we h3
      simp only [List.map_cons, List.sum_cons, ih s.2.1 h3 hbe hwe]
      rw [ovl, h1]
      omega

/-- Sum of interval lengths of a separated list inside [lo, we]. -/
lemma sum_sep_le (we : Int) :
    ∀ (l : List (Int × Int)) (lo : Int), lo ≤ we →
      l.Pairwise (fun a b => a.2 < b.1) →
      (∀ p ∈ l, lo ≤ p.1 ∧ p.1 < p.2 ∧ p.2 ≤ we) →
      (l.map fun p => p.2 - p.1).sum ≤ we - lo := by
  intro l
  induction l with
  | nil =>
      intro lo hlo _ _
      simp only [List.map_nil, List.sum_nil]
      omega
  | cons p rest ih =>
      intro lo hlo hp hb
      have hbp := hb p (by simp)
      have hsep : ∀ q ∈ rest, p.2 < q.1 := (List.pairwise_cons.mp hp).1
      have hrest := ih p.2 hbp.2.2 (List.pairwise_cons.mp hp).2
        (fun q hq => ⟨le_of_lt (hsep q hq), (hb q (List.mem_cons_of_mem p hq)).2⟩)
      simp only [List.map_cons, List.sum_cons]
      omega

/-- An interval lies inside [ws, we] and is non-degenerate. -/
def InWindow (ws we : Int) (p : Int × Int) : Prop :=
  ws ≤ p.1 ∧ p.1 < p.2 ∧ p.2 ≤ we

lemma clipRule_inWindow (tz : Timezone) (ws we date : Int) (r : Rule)
    (p : Int × Int) (h : clipRule tz ws we date r = some p) :
    InWindow ws we p := by
  rw [clipRule] at h
  by_cases h1 : tz.fromLocal (ruleLocalInterval date r).2 > ws ∧
      tz.fromLocal (ruleLocalInterval date r).1 < we
  · rw [if_pos h1] at h
    by_cases h2 : max (tz.fromLocal (ruleLocalInterval date r).1) ws <
        min (tz.fromLocal (ruleLocalInterval date r).2) we
    · rw [if_pos h2] at h
      have := Option.some.inj h
      rw [← this]
      refine ⟨le_max_right _ _, h2, min_le_right _ _⟩
    · rw [if_neg h2] at h
      exact absurd h (by simp)
  · rw [if_neg h1] at h
    exact absurd h (by simp)

lemma dayIntervals_inWindow (tz : Timezone) (bh : BHMap) (ws we date : Int)
    (p : Int × Int) (h : p ∈ dayIntervals tz bh ws we date) :
    InWindow ws we p := by
  rw [dayIntervals] at h
  obtain ⟨r, _, hr⟩ := List.mem_filterMap.mp h
  exact clipRule_inWindow tz ws we date r p hr

lemma mergeGo_inWindow (ws we : Int) :
    ∀ (xs : List (Int × Int)) (last : Int × Int),
      InWindow ws we last → (∀ q ∈ xs, InWindow ws we q) →
      ∀ p ∈ mergeGo last xs, InWindow ws we p := by
  intro xs
  induction xs with
  | nil =>
      intro last hlast _ p hp
      rw [mergeGo] at hp
      rcases List.mem_singleton.mp hp with h
      rw [h]; exact hlast
  | cons q rest ih =>
      intro last hlast hq p hp
      obtain ⟨s, e⟩ := q
      rw [mergeGo] at hp
      have hqw := hq (s, e) (by simp)
      by_cases h : s ≤ last.2
      · rw [if_pos h] at hp
        refine ih (last.1, max last.2 e) ?_
          (fun q' hq' => hq q' (List.mem_cons_of_mem _ hq')) p hp
        rcases hlast with ⟨hl1, hl2, hl3⟩
        rcases hqw with ⟨hq1, hq2, hq3⟩
        exact ⟨hl1, by simp; omega, by simp; omega⟩
      · rw [if_neg h] at hp
        rcases List.mem_cons.mp hp with hp | hp
        · rw [hp]; exact hlast
        · exact ih (s, e) hqw
            (fun q' hq' => hq q' (List.mem_cons_of_mem _ hq')) p hp

lemma merge_inWindow (ws we : Int) (l : List (Int × Int))
    (hin : ∀ q ∈ l, InWindow ws we q) :
    ∀ p ∈ merge_utc_intervals l, InWindow ws we p := by
  intro p hp
  rw [merge_utc_intervals] at hp
  have hmem : ∀ q ∈ insertionSort (fun a b => decide (a.1 ≤ b.1)) l,
      InWindow ws we q := by
    intro q hq
    exact hin q ((insertionSort_perm _ l).mem_iff.mp hq)
  rcases hs : insertionSort (fun a b => decide (a.1 ≤ b.1)) l with _ | ⟨x, xs⟩
  · rw [hs] at hp
    simp at hp
  · rw [hs] at hp
    rw [hs] at hmem
    exact mergeGo_inWindow ws we xs x (hmem x (by simp))
      (fun q hq => hmem q (List.mem_cons_of_mem x hq)) p hp

lemma expand_inWindow (tz : Timezone) (bh : BHMap) (ws we : Int)
    (hlt : ws < we) :
    ∀ p ∈ expand_business_hours_to_utc tz bh ws we, InWindow ws we p := by
  intro p hp
  rw [expand_business_hours_to_utc] at hp
  by_cases h : bh.isEmpty
  · rw [if_pos h] at hp
    rcases List.mem_singleton.mp hp with h'
    rw [h']
    exact ⟨le_refl ws, hlt, le_refl we⟩
  · rw [if_neg h] at hp
    refine merge_inWindow ws we _ ?_ p hp
    intro q hq
    obtain ⟨date, _, hq'⟩ := List.mem_flatMap.mp hq
    exact dayIntervals_inWindow tz bh ws we date q hq'

lemma mergeGo_start_ge :
    ∀ (xs : List (Int × Int)) (last : Int × Int),
      xs.Pairwise (fun a b => a.1 ≤ b.1) → (∀ q ∈ xs, last.1 ≤ q.1) →
      ∀ p ∈ mergeGo last xs, last.1 ≤ p.1 := by
  intro xs
  induction xs with
  | nil =>
      intro last _ _ p hp
      rw [mergeGo] at hp
      rcases List.mem_singleton.mp hp with h
      rw [h]
  | cons q rest ih =>
      intro last hp hge p hmem
      obtain ⟨s, e⟩ := q
      rw [mergeGo] at hmem
      by_cases h : s ≤ last.2
      · rw [if_pos h] at hmem
        exact ih (last.1, max last.2 e) (List.pairwise_cons.mp hp).2
          (fun q' hq' => hge q' (List.mem_cons_of_mem _ hq')) p hmem
      · rw [if_neg h] at hmem
        rcases List.mem_cons.mp hmem with hm | hm
        · rw [hm]
        · have hs := hge (s, e) (by simp)
          have := ih (s, e) (List.pairwise_cons.mp hp).2
            (fun q' hq' => (List.pairwise_cons.mp hp).1 q' hq') p hm
          exact le_trans hs this

lemma mergeGo_pairwise_sep :
    ∀ (xs : List (Int × Int)) (last : Int × Int),
      xs.Pairwise (fun a b => a.1 ≤ b.1) → (∀ q ∈ xs, last.1 ≤ q.1) →
      (mergeGo last xs).Pairwise (fun a b => a.2 < b.1) := by
  intro xs
  induction xs with
  | nil => intro last _ _; simp [mergeGo]
  | cons q rest ih =>
      intro last hp hge
      obtain ⟨s, e⟩ := q
      rw [mergeGo]
      by_cases h : s ≤ last.2
      · rw [if_pos h]
        exact ih (last.1, max last.2 e) (List.pairwise_cons.mp hp).2
          (fun q' hq' => hge q' (List.mem_cons_of_mem _ hq'))
      · rw [if_neg h]
        refine List.pairwise_cons.mpr ⟨?_, ?_⟩
        · intro p hmem
          have := mergeGo_start_ge rest (s, e) (List.pairwise_cons.mp hp).2
            (fun q' hq' => (List.pairwise_cons.mp hp).1 q' hq') p hmem
          show last.2 < p.1
          have hs : (s, e).1 ≤ p.1 := this
          simp at hs
          omega
        · exact ih (s, e) (List.pairwise_cons.mp hp).2
            (fun q' hq' => (List.pairwise_cons.mp hp).1 q' hq')

lemma merge_pairwise_sep (l : List (Int × Int)) :
    (merge_utc_intervals l).Pairwise (fun a b => a.2 < b.1) := by
  rw [merge_utc_intervals]
  have hsorted := insertionSort_pairwise (fun a b : Int × Int =>
      decide (a.1 ≤ b.1))
    (fun a b c hab hbc => by
      simp only [decide_eq_true_eq] at *
      omega)
    (fun a b => by
      rcases le_total a.1 b.1 with h | h
      · exact Or.inl (by simpa using h)
      · exact Or.inr (by simpa using h))
    l
  rcases hs : insertionSort (fun a b => decide (a.1 ≤ b.1)) l with _ | ⟨x, xs⟩
  · rw [hs]
    simp
  · rw [hs]
    rw [hs] at hsorted
    have hsorted' : xs.Pairwise (fun a b : Int × Int => a.1 ≤ b.1) := by
      have := (List.pairwise_cons.mp hsorted).2
      exact this.imp (by intro a b h; simpa using h)
    refine mergeGo_pairwise_sep xs x hsorted' ?_
    intro q hq
    have := (List.pairwise_cons.mp hsorted).1 q hq
    simpa using this

lemma windowUpDown_le (tz : Timezone) (bh : BHMap) (obs : List Obs)
    (ws we : Int) (hlt : ws < we)
    (hsort : obs.Pairwise (fun a b => a.ts ≤ b.ts)) :
    (windowUpDown tz bh obs ws we).1 + (windowUpDown tz bh obs ws we).2
      ≤ we - ws := by
  rw [windowUpDown]
  by_cases h : (expand_business_hours_to_utc tz bh ws we).isEmpty
  · rw [if_pos h]
    simp
    omega
  · rw [if_neg h]
    set bhi := expand_business_hours_to_utc tz bh ws we with hbhi
    have hin : ∀ p ∈ bhi, InWindow ws we p := expand_inWindow tz bh ws we hlt
    have hsep : bhi.Pairwise (fun a b => a.2 < b.1) := by
      rw [hbhi, expand_business_hours_to_utc]
      by_cases hbhp : bh.isEmpty
      · rw [if_pos hbhp]
        simp
      · rw [if_neg hbhp]
        exact merge_pairwise_sep _
    have hcov : coversFromW ws (status_segments obs ws we) we :=
      status_segments_coversW obs ws we (le_of_lt hlt) hsort
    rw [accumulate_overlaps_sum]
    have hswap : ((status_segments obs ws we).map
        (fun seg => (bhi.map (ovl seg)).sum)).sum
        = (bhi.map fun p =>
            ((status_segments obs ws we).map fun seg => ovl seg p).sum).sum :=
      sum_map_swap _ _ _
    rw [hswap]
    have hcong : (bhi.map fun p =>
        ((status_segments obs ws we).map fun seg => ovl seg p).sum)
        = bhi.map fun p => p.2 - p.1 := by
      apply List.map_congr_left
      intro p hp
      have hiw := hin p hp
      have hsum := covers_ovl_sum we p (status_segments obs ws we) ws hcov
        (le_of_lt hiw.2.1) hiw.2.2
      rw [hsum]
      rcases hiw with ⟨h1, h2, h3⟩
      omega
    rw [hcong]
    exact sum_sep_le we bhi ws (le_of_lt hlt) hsep fun p hp => hin p hp

/-- C10: (i) for every segment list partitioning [ws, we) and every
normalized business-hours interval list lying inside [ws, we), the pair
returned by `_accumulate_overlaps` satisfies uptime + downtime = total
business-hours seconds; (ii) consequently, in `metrics_for_store`, each
window's accumulated uptime + downtime seconds never exceed the window
length (3600, 86400 and 604800 seconds — 60 minutes, 24 hours and 168 hours
— before unit conversion and rounding). -/
theorem accumulate_conservation :
    (∀ (segs : List Seg) (bhi : List (Int × Int)) (ws we : Int),
        IsPartitionOf segs ws we → NormalizedIntervals bhi →
        (∀ p ∈ bhi, ws ≤ p.1 ∧ p.2 ≤ we) →
        (accumulate_overlaps segs bhi).1 + (accumulate_overlaps segs bhi).2
          = (bhi.map fun p => p.2 - p.1).sum) ∧
    (∀ (tz : Timezone) (bh : BHMap) (obs : List Obs) (now : Int),
        obs.Pairwise (fun a b => a.ts ≤ b.ts) →
        (windowUpDown tz bh obs (now - 3600) now).1
            + (windowUpDown tz bh obs (now - 3600) now).2 ≤ 3600 ∧
        (windowUpDown tz bh obs (now - 86400) now).1
            + (windowUpDown tz bh obs (now - 86400) now).2 ≤ 86400 ∧
        (windowUpDown tz bh obs (now - 604800) now).1
            + (windowUpDown tz bh obs (now - 604800) now).2 ≤ 604800) := by
  constructor
  · intro segs bhi ws we hpart hnorm hin
    have hcov : coversFromW ws segs we := isPartition_coversW segs ws we hpart
    rw [accumulate_overlaps_sum]
    have hswap : (segs.map (fun seg => (bhi.map (ovl seg)).sum)).sum
        = (bhi.map fun p => (segs.map fun seg => ovl seg p).sum).sum :=
      sum_map_swap _ _ _
    rw [hswap]
    have hcong : (bhi.map fun p => (segs.map fun seg => ovl seg p).sum)
        = bhi.map fun p => p.2 - p.1 := by
      apply List.map_congr_left
      intro p hp
      have hb := hnorm.2 p hp
      have hw := hin p hp
      have hsum := covers_ovl_sum we p segs ws hcov (le_of_lt hb) hw.2
      rw [hsum]
      omega
    rw [hcong]
  · intro tz bh obs now hsort
    refine ⟨?_, ?_, ?_⟩
    · have := windowUpDown_le tz bh obs (now - 3600) now (by omega) hsort
      omega
    · have := windowUpDown_le tz bh obs (now - 86400) now (by omega) hsort
      omega
    · have := windowUpDown_le tz bh obs (now - 604800) now (by omega) hsort
      omega

theorem accumulate_conservation_witness :
    ((accumulate_overlaps [(0, 2, "active"), (2, 5, "inactive")] [(1, 3)]).1
        + (accumulate_overlaps
            [(0, 2, "active"), (2, 5, "inactive")] [(1, 3)]).2
      = ([( (1 : Int), (3 : Int))].map fun p => p.2 - p.1).sum) ∧
    ((windowUpDown tzUTC [] [⟨100, "active"⟩] (86400 - 3600) 86400).1
        + (windowUpDown tzUTC [] [⟨100, "active"⟩] (86400 - 3600) 86400).2
      ≤ 3600) :=
  ⟨accumulate_conservation.1 [(0, 2, "active"), (2, 5, "inactive")] [(1, 3)]
      0 5 ⟨by decide, by decide, by decide, by decide, by decide⟩
      ⟨by decide, by decide⟩ (by decide),
    (accumulate_conservation.2 tzUTC [] [⟨100, "active"⟩] 86400
      (by decide)).1⟩

/-! ### C5 and C6: single-rule occurrences survive expansion as one interval -/

lemma bhGet_singleton (w d : Int) (rules : List Rule) :
    bhGet [(w, rules)] d = if d = w then rules else [] := by
  rw [bhGet]
  by_cases h : d = w
  · rw [if_pos h, List.find?_cons]
    have hbeq : (((w, rules) : Int × List Rule).1 == d) = true := by
      simp only [beq_iff_eq]
      omega
    rw [hbeq]
    rfl
  · rw [if_neg h, List.find?_cons]
    have hbeq : (((w, rules) : Int × List Rule).1 == d) = false := by
      simp only [beq_eq_false_iff_ne, ne_eq]
      omega
    rw [hbeq]
    rfl

lemma dayIntervals_singleton (tz : Timezone) (w s e ws we date : Int) :
    dayIntervals tz [(w, [(s, e)])] ws we date
      = if weekdayOf date = w
        then (clipRule tz ws we date (s, e)).toList else [] := by
  rw [dayIntervals, bhGet_singleton]
  by_cases h : weekdayOf date = w
  · rw [if_pos h, if_pos h, List.filterMap_cons]
    cases hc : clipRule tz ws we date (s, e) with
    | none => simp
    | some p => simp
  · rw [if_neg h, if_neg h]
    rfl

lemma mem_dateRange (a b x : Int) : x ∈ dateRange a b ↔ a ≤ x ∧ x ≤ b := by
  rw [dateRange]
  simp only [List.mem_map, List.mem_range]
  constructor
  · rintro ⟨i, hi, hx⟩
    omega
  · rintro ⟨h1, h2⟩
    exact ⟨(x - a).toNat, by omega, by omega⟩

lemma dateRange_pairwise (a b : Int) : (dateRange a b).Pairwise (· < ·) := by
  rw [dateRange, List.pairwise_map]
  refine List.Pairwise.imp ?_ (List.pairwise_lt_range _)
  intro i j h
  omega

lemma ruleLocalInterval_bounds (date : Int) (r : Rule)
    (h1 : 0 ≤ r.1) (h2 : r.1 ≤ 86400) (h3 : 0 ≤ r.2) (h4 : r.2 ≤ 86400) :
    86400 * date ≤ (ruleLocalInterval date r).1 ∧
    (ruleLocalInterval date r).2 ≤ 86400 * (date + 2) := by
  rw [ruleLocalInterval]
  by_cases hz : r.1 = 0 ∧ r.2 = 0
  · rw [if_pos hz]
    constructor <;> simp
  · rw [if_neg hz]
    by_cases hle : r.1 ≤ r.2
    · rw [if_pos hle]
      constructor <;> (simp; omega)
    · rw [if_neg hle]
      constructor <;> (simp; omega)

lemma clipRule_some_bounds (tz : Timezone) (ws we date : Int) (r : Rule)
    (p : Int × Int) (h : clipRule tz ws we date r = some p)
    (h1 : 0 ≤ r.1) (h2 : r.1 ≤ 86400) (h3 : 0 ≤ r.2) (h4 : r.2 ≤ 86400) :
    86400 * date - 50400 ≤ p.1 ∧ p.2 ≤ 86400 * (date + 2) + 43200 := by
  have hrb := ruleLocalInterval_bounds date r h1 h2 h3 h4
  have hge := tz.fromLocal_ge (ruleLocalInterval date r).1
  have hle := tz.fromLocal_le (ruleLocalInterval date r).2
  rw [clipRule] at h
  by_cases hov : tz.fromLocal (ruleLocalInterval date r).2 > ws ∧
      tz.fromLocal (ruleLocalInterval date r).1 < we
  · rw [if_pos hov] at h
    by_cases hcl : max (tz.fromLocal (ruleLocalInterval date r).1) ws <
        min (tz.fromLocal (ruleLocalInterval date r).2) we
    · rw [if_pos hcl] at h
      have := Option.some.inj h
      rw [← this]
      constructor
      · show 86400 * date - 50400 ≤
          max (tz.fromLocal (ruleLocalInterval date r).1) ws
        omega
      · show min (tz.fromLocal (ruleLocalInterval date r).2) we
          ≤ 86400 * (date + 2) + 43200
        omega
    · rw [if_neg hcl] at h
      exact absurd h (by simp)
  · rw [if_neg hov] at h
    exact absurd h (by simp)

lemma weekday_eq_gap (d1 d2 : Int) (h : weekdayOf d1 = weekdayOf d2)
    (hlt : d1 < d2) : d1 + 7 ≤ d2 := by
  rw [weekdayOf, weekdayOf] at h
  omega

lemma dayIntervals_singleton_mem (tz : Timezone) (w s e ws we date : Int)
    (p : Int × Int)
    (hp : p ∈ dayIntervals tz [(w, [(s, e)])] ws we date) :
    weekdayOf date = w ∧ clipRule tz ws we date (s, e) = some p := by
  rw [dayIntervals_singleton] at hp
  by_cases h : weekdayOf date = w
  · rw [if_pos h] at hp
    refine ⟨h, ?_⟩
    cases hc : clipRule tz ws we date (s, e) with
    | none => rw [hc] at hp; simp at hp
    | some q =>
        rw [hc] at hp
        simp at hp
        rw [hp]
  · rw [if_neg h] at hp
    simp at hp

lemma flatMap_singleton_pairwise (tz : Timezone) (w s e ws we : Int)
    (hs0 : 0 ≤ s) (hs1 : s ≤ 86400) (he0 : 0 ≤ e) (he1 : e ≤ 86400) :
    ∀ dates : List Int, dates.Pairwise (· < ·) →
      (dates.flatMap (dayIntervals tz [(w, [(s, e)])] ws we)).Pairwise
        (fun a b => a.2 < b.1) := by
  intro dates
  induction dates with
  | nil => intro _; simp
  | cons d1 rest ih =>
      intro hdp
      rw [List.flatMap_cons, List.pairwise_append]
      refine ⟨?_, ih (List.pairwise_cons.mp hdp).2, ?_⟩
      · rw [dayIntervals_singleton]
        by_cases h : weekdayOf d1 = w
        · rw [if_pos h]
          cases clipRule tz ws we d1 (s, e) with
          | none => simp
          | some q => simp
        · rw [if_neg h]
          simp
      · intro p hp q hq
        obtain ⟨d2, hd2, hq'⟩ := List.mem_flatMap.mp hq
        have hlt : d1 < d2 := (List.pairwise_cons.mp hdp).1 d2 hd2
        obtain ⟨hw1, hc1⟩ :=
          dayIntervals_singleton_mem tz w s e ws we d1 p hp
        obtain ⟨hw2, hc2⟩ :=
          dayIntervals_singleton_mem tz w s e ws we d2 q hq'
        have hb1 := clipRule_some_bounds tz ws we d1 (s, e) p hc1
          hs0 hs1 he0 he1
        have hb2 := clipRule_some_bounds tz ws we d2 (s, e) q hc2
          hs0 hs1 he0 he1
        have hgap : d1 + 7 ≤ d2 :=
          weekday_eq_gap d1 d2 (by rw [hw1, hw2]) hlt
        omega

/-- The pre-merge interval list of a singleton-rule expansion is normalized:
occurrences of the same weekday are at least a week apart, while real UTC
offsets lie in [-12h, +14h], so the contributed intervals cannot touch. -/
lemma flatMap_singleton_normalized (tz : Timezone) (w s e ws we a b : Int)
    (hs0 : 0 ≤ s) (hs1 : s ≤ 86400) (he0 : 0 ≤ e) (he1 : e ≤ 86400) :
    NormalizedIntervals
      ((dateRange a b).flatMap
        (dayIntervals tz [(w, [(s, e)])] ws we)) := by
  constructor
  · exact flatMap_singleton_pairwise tz w s e ws we hs0 hs1 he0 he1 _
      (dateRange_pairwise a b)
  · intro p hp
    obtain ⟨date, _, hp'⟩ := List.mem_flatMap.mp hp
    exact (dayIntervals_inWindow tz _ ws we date p hp').2.1

lemma clipRule_full (tz : Timezone) (ws we date : Int) (r : Rule)
    (h1 : ws ≤ tz.fromLocal (ruleLocalInterval date r).1)
    (h2 : tz.fromLocal (ruleLocalInterval date r).2 ≤ we)
    (hlen : tz.fromLocal (ruleLocalInterval date r).1
      < tz.fromLocal (ruleLocalInterval date r).2) :
    clipRule tz ws we date r
      = some (tz.fromLocal (ruleLocalInterval date r).1,
              tz.fromLocal (ruleLocalInterval date r).2) := by
  rw [clipRule]
  rw [if_pos ⟨by omega, by omega⟩]
  rw [if_pos (by omega : max (tz.fromLocal (ruleLocalInterval date r).1) ws <
    min (tz.fromLocal (ruleLocalInterval date r).2) we)]
  congr 1
  rw [Prod.mk.injEq]
  omega

/-- A single rule occurrence whose full UTC span lies inside the window and
whose occurrence date is in the scan range appears in the expander output as
one element: the unclipped, unsplit interval from the occurrence's local
start to its local end. -/
lemma expand_singleton_occurrence (tz : Timezone) (w s e d ws we : Int)
    (hs0 : 0 ≤ s) (hs1 : s ≤ 86400) (he0 : 0 ≤ e) (he1 : e ≤ 86400)
    (hwd : weekdayOf d = w)
    (ha : dateOf (tz.toLocal ws) - 1 ≤ d)
    (hb : d ≤ dateOf (tz.toLocal we) + 1)
    (h1 : ws ≤ tz.fromLocal (ruleLocalInterval d (s, e)).1)
    (h2 : tz.fromLocal (ruleLocalInterval d (s, e)).2 ≤ we)
    (hlen : tz.fromLocal (ruleLocalInterval d (s, e)).1
      < tz.fromLocal (ruleLocalInterval d (s, e)).2) :
    (tz.fromLocal (ruleLocalInterval d (s, e)).1,
      tz.fromLocal (ruleLocalInterval d (s, e)).2)
      ∈ expand_business_hours_to_utc tz [(w, [(s, e)])] ws we := by
  rw [expand_business_hours_to_utc, if_neg (by simp)]
  show _ ∈ merge_utc_intervals
    ((dateRange (dateOf (tz.toLocal ws) - 1) (dateOf (tz.toLocal we) + 1))
      |>.flatMap (dayIntervals tz [(w, [(s, e)])] ws we))
  rw [merge_eq_self_of_normalized _
    (flatMap_singleton_normalized tz w s e ws we _ _ hs0 hs1 he0 he1)]
  rw [List.mem_flatMap]
  refine ⟨d, (mem_dateRange _ _ d).mpr ⟨ha, hb⟩, ?_⟩
  rw [dayIntervals_singleton, if_pos hwd, clipRule_full tz ws we d (s, e)
    h1 h2 hlen]
  simp

/-- C5: a business-hours rule with start_local > end_local on weekday `w` is
expanded, for an occurrence date `d` of that weekday, into the single
overnight local interval [date@start_local, (date+1)@end_local); whenever the
scan range reaches the occurrence date and the window covers the full UTC
span (and the zone keeps the span non-degenerate), the expander output
contains exactly that one continuous UTC interval as one element — it is
never split into two disjoint pieces at the local midnight boundary. -/
theorem overnight_rule_single_interval (tz : Timezone) (w s e d ws we : Int)
    (he0 : 0 ≤ e) (hlt : e < s) (hs1 : s < 86400)
    (hwd : weekdayOf d = w)
    (ha : dateOf (tz.toLocal ws) - 1 ≤ d)
    (hb : d ≤ dateOf (tz.toLocal we) + 1)
    (h1 : ws ≤ tz.fromLocal (86400 * d + s))
    (h2 : tz.fromLocal (86400 * (d + 1) + e) ≤ we)
    (hlen : tz.fromLocal (86400 * d + s)
      < tz.fromLocal (86400 * (d + 1) + e)) :
    ruleLocalInterval d (s, e) = (86400 * d + s, 86400 * (d + 1) + e) ∧
    (tz.fromLocal (86400 * d + s), tz.fromLocal (86400 * (d + 1) + e))
      ∈ expand_business_hours_to_utc tz [(w, [(s, e)])] ws we := by
  have hrl : ruleLocalInterval d (s, e)
      = (86400 * d + s, 86400 * (d + 1) + e) := by
    rw [ruleLocalInterval]
    rw [if_neg (by omega : ¬ (s = 0 ∧ e = 0))]
    rw [if_neg (by omega : ¬ s ≤ e)]
  refine ⟨hrl, ?_⟩
  have h1' : ws ≤ tz.fromLocal (ruleLocalInterval d (s, e)).1 := by
    rw [hrl]; exact h1
  have h2' : tz.fromLocal (ruleLocalInterval d (s, e)).2 ≤ we := by
    rw [hrl]; exact h2
  have hlen' : tz.fromLocal (ruleLocalInterval d (s, e)).1
      < tz.fromLocal (ruleLocalInterval d (s, e)).2 := by
    rw [hrl]; exact hlen
  have hmem := expand_singleton_occurrence tz w s e d ws we
    (by omega) (by omega) he0 (by omega) hwd ha hb h1' h2' hlen'
  rw [hrl] at hmem
  exact hmem

theorem overnight_rule_single_interval_witness :
    ruleLocalInterval 4 (79200, 21600)
      = (86400 * 4 + 79200, 86400 * (4 + 1) + 21600) ∧
    (tzUTC.fromLocal (86400 * 4 + 79200),
      tzUTC.fromLocal (86400 * (4 + 1) + 21600))
      ∈ expand_business_hours_to_utc tzUTC [(0, [(79200, 21600)])]
          400000 500000 :=
  overnight_rule_single_interval tzUTC 0 79200 21600 4 400000 500000
    (by decide) (by decide) (by decide) (by decide) (by decide) (by decide)
    (by decide) (by decide) (by decide)

/-- C6: a rule whose start_local and end_local both equal midnight is
interpreted on each occurrence date as the full 24-hour local calendar day —
from that date's midnight through the next date's midnight, of local length
86400 seconds, never zero-length — and, whenever the occurrence is in scan
range and its UTC span fits the window, the expander output contains that
full-day interval as one element. -/
theorem sentinel_rule_full_day (tz : Timezone) (w d ws we : Int)
    (hwd : weekdayOf d = w)
    (ha : dateOf (tz.toLocal ws) - 1 ≤ d)
    (hb : d ≤ dateOf (tz.toLocal we) + 1)
    (h1 : ws ≤ tz.fromLocal (86400 * d))
    (h2 : tz.fromLocal (86400 * (d + 1)) ≤ we)
    (hlen : tz.fromLocal (86400 * d) < tz.fromLocal (86400 * (d + 1))) :
    ruleLocalInterval d (0, 0) = (86400 * d, 86400 * (d + 1)) ∧
    (ruleLocalInterval d (0, 0)).2 - (ruleLocalInterval d (0, 0)).1
      = 86400 ∧
    (tz.fromLocal (86400 * d), tz.fromLocal (86400 * (d + 1)))
      ∈ expand_business_hours_to_utc tz [(w, [(0, 0)])] ws we := by
  have hrl : ruleLocalInterval d (0, 0) = (86400 * d, 86400 * (d + 1)) := by
    rw [ruleLocalInterval, if_pos ⟨rfl, rfl⟩]
  refine ⟨hrl, ?_, ?_⟩
  · rw [hrl]
    show 86400 * (d + 1) - 86400 * d = 86400
    ring
  · have h1' : ws ≤ tz.fromLocal (ruleLocalInterval d (0, 0)).1 := by
      rw [hrl]; exact h1
    have h2' : tz.fromLocal (ruleLocalInterval d (0, 0)).2 ≤ we := by
      rw [hrl]; exact h2
    have hlen' : tz.fromLocal (ruleLocalInterval d (0, 0)).1
        < tz.fromLocal (ruleLocalInterval d (0, 0)).2 := by
      rw [hrl]; exact hlen
    have hmem := expand_singleton_occurrence tz w 0 0 d ws we
      (by omega) (by omega) (by omega) (by omega) hwd ha hb h1' h2' hlen'
    rw [hrl] at hmem
    exact hmem

theorem sentinel_rule_full_day_witness :
    ruleLocalInterval 4 (0, 0) = (86400 * 4, 86400 * (4 + 1)) ∧
    (ruleLocalInterval 4 (0, 0)).2 - (ruleLocalInterval 4 (0, 0)).1
      = 86400 ∧
    (tzUTC.fromLocal (86400 * 4), tzUTC.fromLocal (86400 * (4 + 1)))
      ∈ expand_business_hours_to_utc tzUTC [(0, [(0, 0)])] 300000 500000 :=
  sentinel_rule_full_day tzUTC 0 4 300000 500000
    (by decide) (by decide) (by decide) (by decide) (by decide) (by decide)

/-! ### C3: parallel report generation is failure-isolated and deterministic -/

/-- The row a store contributes to the report: its id and metrics when its
computation succeeds, nothing when it raises. -/
def rowOf {α : Type} (compute : String → Except String α) (s : String) :
    Option (String × α) :=
  match compute s with
  | .ok m => some (s, m)
  | .error _ => none

lemma rowOf_eq_some {α : Type} (compute : String → Except String α)
    (s : String) (x : String × α) :
    rowOf compute s = some x ↔ x.1 = s ∧ compute s = Except.ok x.2 := by
  rw [rowOf]
  obtain ⟨x1, x2⟩ := x
  cases hc : compute s with
  | ok m => simp [Prod.ext_iff, eq_comm, and_comm]
  | error err => simp

lemma collectRows_fst {α : Type} (compute : String → Except String α)
    (order : List String) :
    (collectRows compute order).1 = order.filterMap (rowOf compute) := by
  rw [collectRows]
  suffices h : ∀ init : List (String × α) × List String,
      (order.foldl
        (fun acc sid =>
          match compute sid with
          | .ok m => (acc.1 ++ [(sid, m)], acc.2)
          | .error _ => (acc.1, acc.2 ++ [sid]))
        init).1
      = init.1 ++ order.filterMap (rowOf compute) by
    have := h ([], [])
    simpa using this
  induction order with
  | nil => intro init; simp
  | cons sid rest ih =>
      intro init
      rw [List.foldl_cons, List.filterMap_cons]
      cases hc : compute sid with
      | ok m =>
          rw [ih]
          have hro : rowOf compute sid = some (sid, m) := by
            rw [rowOf, hc]
          rw [hro]
          simp
      | error err =>
          rw [ih]
          have hro : rowOf compute sid = none := by
            rw [rowOf, hc]
          rw [hro]

lemma sorted_rows_eq {α : Type} (r1 r2 : List (String × α))
    (hperm : r1.Perm r2)
    (hs1 : r1.Pairwise (fun a b => a.1 ≤ b.1))
    (hs2 : r2.Pairwise (fun a b => a.1 ≤ b.1))
    (hnd : (r1.map Prod.fst).Nodup) : r1 = r2 := by
  haveI : IsAntisymm (String × α) (fun a b => a.1 < b.1) :=
    ⟨fun a b hab hba => absurd (lt_trans hab hba) (lt_irrefl _)⟩
  have hnd2 : (r2.map Prod.fst).Nodup := (hperm.map Prod.fst).nodup hnd
  rw [List.Nodup, List.pairwise_map] at hnd hnd2
  have hp1 : r1.Pairwise (fun a b => a.1 < b.1) :=
    (hs1.and hnd).imp fun h => lt_of_le_of_ne h.1 h.2
  have hp2 : r2.Pairwise (fun a b => a.1 < b.1) :=
    (hs2.and hnd2).imp fun h => lt_of_le_of_ne h.1 h.2
  exact List.eq_of_perm_of_sorted hperm hp1 hp2

lemma report_perm {α : Type} (compute : String → Except String α)
    (order : List String) :
    (generate_report_optimized compute order).Perm
      (order.filterMap (rowOf compute)) := by
  rw [generate_report_optimized, collectRows_fst]
  exact insertionSort_perm _ _

lemma report_sorted {α : Type} (compute : String → Except String α)
    (order : List String) :
    (generate_report_optimized compute order).Pairwise
      (fun a b => a.1 ≤ b.1) := by
  rw [generate_report_optimized]
  have := insertionSort_pairwise
    (fun (a b : String × α) => decide (a.1 ≤ b.1))
    (fun a b c hab hbc => by
      simp only [decide_eq_true_eq] at *
      exact le_trans hab hbc)
    (fun a b => by
      rcases le_total a.1 b.1 with h | h
      · exact Or.inl (by simpa using h)
      · exact Or.inr (by simpa using h))
    (collectRows compute order).1
  exact this.imp (by intro a b h; simpa using h)

lemma filterMap_rowOf_key_nodup {α : Type}
    (compute : String → Except String α) (ids : List String)
    (hn : ids.Nodup) :
    ((ids.filterMap (rowOf compute)).map Prod.fst).Nodup := by
  rw [List.Nodup, List.pairwise_map]
  rw [List.pairwise_filterMap]
  refine hn.imp_of_mem ?_
  intro a b _ _ hne x hx y hy
  have hxa : x.1 = a := ((rowOf_eq_some compute a x).mp hx).1
  have hyb : y.1 = b := ((rowOf_eq_some compute b y).mp hy).1
  rw [hxa, hyb]
  exact hne

/-- C3: for every store-id list without duplicates and any two completion
orders of the concurrent per-store computations, `generate_report_optimized`
(i) yields the same rows regardless of completion order, (ii) yields exactly
the successful stores' rows sorted ascending by store id, (iii) produces a
row list sorted ascending by store id, and (iv) a store id appears in the
output iff it is a known store whose computation succeeded — per-store
failures are caught and only excluded, never aborting the batch. -/
theorem report_deterministic {α : Type} (storeIds o1 o2 : List String)
    (compute : String → Except String α)
    (hn : storeIds.Nodup) (h1 : o1.Perm storeIds) (h2 : o2.Perm storeIds) :
    generate_report_optimized compute o1
        = generate_report_optimized compute o2 ∧
    generate_report_optimized compute o1
        = (insertionSort (fun a b => decide (a ≤ b)) storeIds).filterMap
            (rowOf compute) ∧
    (generate_report_optimized compute o1).Pairwise
        (fun a b => a.1 ≤ b.1) ∧
    (∀ sid, (∃ m, (sid, m) ∈ generate_report_optimized compute o1)
        ↔ sid ∈ storeIds ∧ ∃ m, compute sid = Except.ok m) := by
  have hperm1 : (generate_report_optimized compute o1).Perm
      (storeIds.filterMap (rowOf compute)) :=
    (report_perm compute o1).trans (h1.filterMap _)
  have hperm2 : (generate_report_optimized compute o2).Perm
      (storeIds.filterMap (rowOf compute)) :=
    (report_perm compute o2).trans (h2.filterMap _)
  have hnd1 : ((generate_report_optimized compute o1).map Prod.fst).Nodup := by
    have := filterMap_rowOf_key_nodup compute storeIds hn
    exact (hperm1.map Prod.fst).symm.nodup this
  have hrhs_perm : ((insertionSort (fun a b => decide (a ≤ b))
      storeIds).filterMap (rowOf compute)).Perm
      (storeIds.filterMap (rowOf compute)) :=
    (insertionSort_perm _ storeIds).filterMap _
  have hrhs_sorted : ((insertionSort (fun a b => decide (a ≤ b))
      storeIds).filterMap (rowOf compute)).Pairwise
      (fun a b => a.1 ≤ b.1) := by
    rw [List.pairwise_filterMap]
    have hsort := insertionSort_pairwise
      (fun (a b : String) => decide (a ≤ b))
      (fun a b c hab hbc => by
        simp only [decide_eq_true_eq] at *
        exact le_trans hab hbc)
      (fun a b => by
        rcases le_total a b with h | h
        · exact Or.inl (by simpa using h)
        · exact Or.inr (by simpa using h))
      storeIds
    refine hsort.imp_of_mem ?_
    intro a b _ _ hab x hx y hy
    have hxa : x.1 = a := ((rowOf_eq_some compute a x).mp hx).1
    have hyb : y.1 = b := ((rowOf_eq_some compute b y).mp hy).1
    rw [hxa, hyb]
    simpa using hab
  refine ⟨?_, ?_, report_sorted compute o1, ?_⟩
  · exact sorted_rows_eq _ _ (hperm1.trans hperm2.symm)
      (report_sorted compute o1) (report_sorted compute o2) hnd1
  · exact sorted_rows_eq _ _ (hperm1.trans hrhs_perm.symm)
      (report_sorted compute o1) hrhs_sorted hnd1
  · intro sid
    constructor
    · rintro ⟨m, hm⟩
      have : (sid, m) ∈ storeIds.filterMap (rowOf compute) :=
        hperm1.subset hm
      obtain ⟨s, hs, hrow⟩ := List.mem_filterMap.mp this
      obtain ⟨hkey, hok⟩ := (rowOf_eq_some compute s (sid, m)).mp hrow
      simp only at hkey
      rw [← hkey] at hs hok
      exact ⟨hs, m, hok⟩
    · rintro ⟨hmem, m, hok⟩
      refine ⟨m, hperm1.symm.subset ?_⟩
      rw [List.mem_filterMap]
      exact ⟨sid, hmem, (rowOf_eq_some compute sid (sid, m)).mpr ⟨rfl, hok⟩⟩

theorem report_deterministic_witness :
    (["b", "c", "a"] : List String).Nodup ∧
    generate_report_optimized
        (fun s => if s = "b" then Except.error "boom" else Except.ok 7)
        ["c", "a", "b"]
      = generate_report_optimized
        (fun s => if s = "b" then Except.error "boom" else Except.ok 7)
        ["a", "b", "c"] :=
  ⟨by decide,
    (report_deterministic ["b", "c", "a"] ["c", "a", "b"] ["a", "b", "c"]
      (fun s => if s = "b" then Except.error "boom" else Except.ok 7)
      (by decide) (by decide) (by decide)).1⟩

end StoreMonitoring
